import Mathlib

/-!
# nav6 IMU driver (`crio/c++/nav6SimpleRobotExample/IMU.cpp`)

A shallow embedding of the acquisition task `imuTask` and of the methods of
class `IMU`, with theorems about yaw normalisation, the connectivity
predicate, the yaw history ring buffer, the restart path, the packet scan loop
and the timeout branch.

Modelling conventions.
* `float`/`double` values are exact rationals (`ℚ`).
* `YAW_HISTORY_LENGTH` is declared in `IMU.h`; it is the parameter `N`.
* `IMUProtocol::decodeYPRUpdate` and `IMUProtocol::encodeStreamCommand` are
  declared in `IMUProtocol.h`; they are parameters (`Decoder`, `enc`).
* `Timer::GetPPCTimestamp()` / `Timer::GetFPGATimestamp()` readings are
  arguments (`now`, `clock`, the fields of `TimeoutEnv`).
* The file-level statics `update_count`, `byte_count`, `stop` are fields of the
  state record next to the object's members. The two counters are 32-bit
  `int`s: every addition to them is reduced to the two's-complement range
  `[-2^31, 2^31)` by `wrapInt32`.
* Calls on the serial port and on the task object are recorded, oldest first,
  in the field `effects`; `Wait` only delays and is not recorded.
-/

namespace Nav6

/-- The four values carried by one orientation update: the locals
`yaw, pitch, roll, compass_heading` of `imuTask`, which `decodeYPRUpdate`
receives by reference. -/
structure YPR where
  yaw : ℚ
  pitch : ℚ
  roll : ℚ
  compass_heading : ℚ
deriving DecidableEq

/-- Calls made on the serial port (`pserial_port`) and on the task (`m_task`). -/
inductive Effect where
  | portReset
  | portFlush
  | portWrite (bytes : List Nat)
  | taskStart
  | taskStop
  | taskRestart
deriving DecidableEq

/-- Members of class `IMU` read or written by `IMU.cpp`, the statics
`update_count`, `byte_count`, `stop` of the file, and the log of port and task
calls. `yaw_history` is the array `yaw_history[YAW_HISTORY_LENGTH]`. -/
structure IMU where
  update_rate_hz : Nat
  yaw : ℚ
  pitch : ℚ
  roll : ℚ
  compass_heading : ℚ
  yaw_offset : ℚ
  yaw_history : List ℚ
  next_yaw_history_index : Nat
  last_update_time : ℚ
  update_count : Int
  byte_count : Int
  stop : Bool
  effects : List Effect
deriving DecidableEq

/-- Value of a 32-bit two's-complement `int` holding the integer `x`: `x`
reduced modulo `2^32` into `[-2^31, 2^31)`. -/
def wrapInt32 (x : Int) : Int :=
  (x + 2147483648) % 4294967296 - 2147483648

/-- `IMU::InitializeYawHistory`: every one of the `N` slots is set to 0, the
write cursor to 0 and `last_update_time` to 0.0. -/
def InitializeYawHistory (N : Nat) (s : IMU) : IMU :=
  { s with
    yaw_history := List.replicate N 0
    next_yaw_history_index := 0
    last_update_time := 0 }

/-- Index written by `IMU::UpdateYawHistory`: the cursor, wrapped to 0 when it
has reached `YAW_HISTORY_LENGTH`. -/
def yawWriteIndex (N : Nat) (s : IMU) : Nat :=
  if N ≤ s.next_yaw_history_index then 0 else s.next_yaw_history_index

/-- `IMU::UpdateYawHistory(curr_yaw)`; `now` is the value returned by
`Timer::GetPPCTimestamp()`. -/
def UpdateYawHistory (N : Nat) (now : ℚ) (curr_yaw : ℚ) (s : IMU) : IMU :=
  { s with
    yaw_history := s.yaw_history.set (yawWriteIndex N s) curr_yaw
    last_update_time := now
    next_yaw_history_index := yawWriteIndex N s + 1 }

/-- `IMU::GetAverageFromYawHistory`: the loop sums the `N` slots, then the sum
is divided by `YAW_HISTORY_LENGTH`. -/
def GetAverageFromYawHistory (N : Nat) (s : IMU) : ℚ :=
  (List.range N).foldl (fun yaw_history_sum i => yaw_history_sum + s.yaw_history.getD i 0) 0
    / (N : ℚ)

/-- `IMU::ZeroYaw`. -/
def ZeroYaw (N : Nat) (s : IMU) : IMU :=
  { s with yaw_offset := GetAverageFromYawHistory N s }

/-- `IMU::GetYaw`. -/
def GetYaw (s : IMU) : ℚ :=
  let yaw := s.yaw - s.yaw_offset
  let yaw := if yaw < -180 then yaw + 360 else yaw
  let yaw := if yaw > 180 then yaw - 360 else yaw
  yaw

/-- `IMU::GetPitch`. -/
def GetPitch (s : IMU) : ℚ := s.pitch

/-- `IMU::GetRoll`. -/
def GetRoll (s : IMU) : ℚ := s.roll

/-- `IMU::GetCompassHeading`. -/
def GetCompassHeading (s : IMU) : ℚ := s.compass_heading

/-- `IMU::GetByteCount` (the `int` is returned as a `double`). -/
def GetByteCount (s : IMU) : ℚ := (s.byte_count : ℚ)

/-- `IMU::GetUpdateCount` (the `int` is returned as a `double`). -/
def GetUpdateCount (s : IMU) : ℚ := (s.update_count : ℚ)

/-- `IMU::IsConnected`; `now` is the value returned by
`Timer::GetPPCTimestamp()`. -/
def IsConnected (now : ℚ) (s : IMU) : Bool :=
  let time_since_last_update := now - s.last_update_time
  decide (time_since_last_update ≤ 1)

/-- `IMU::SetYawPitchRoll`; `now` is the clock reading taken inside
`UpdateYawHistory`. -/
def SetYawPitchRoll (N : Nat) (now : ℚ) (yaw pitch roll compass_heading : ℚ) (s : IMU) : IMU :=
  let s := { s with yaw := yaw, pitch := pitch, roll := roll, compass_heading := compass_heading }
  UpdateYawHistory N now s.yaw s

/-- `IMU::Restart`. -/
def Restart (N : Nat) (s : IMU) : IMU :=
  let s := { s with stop := true }
  let s := { s with effects := s.effects ++ [Effect.portReset] }
  let s := { s with effects := s.effects ++ [Effect.taskStop] }
  let s := { s with effects := s.effects ++ [Effect.portReset] }
  let s := InitializeYawHistory N s
  let s := { s with update_count := 0 }
  let s := { s with byte_count := 0 }
  { s with effects := s.effects ++ [Effect.taskRestart] }

/-- `IMU::InitIMU`; `enc rate` is the packet produced by
`IMUProtocol::encodeStreamCommand` for the YPR stream at `rate` Hz. -/
def InitIMU (N : Nat) (enc : Nat → List Nat) (s : IMU) : IMU :=
  let s := InitializeYawHistory N s
  let s := { s with yaw_offset := 0 }
  { s with effects := s.effects ++ [Effect.portWrite (enc s.update_rate_hz)] }

/-- The constructor `IMU::IMU(SerialPort*, uint8_t)`; `mem` is the object
before construction (members not assigned by the constructor keep its
values). -/
def IMU.ctor (N : Nat) (enc : Nat → List Nat) (update_rate_hz : Nat) (mem : IMU) : IMU :=
  let s := { mem with update_rate_hz := update_rate_hz }
  let s := { s with yaw := 0, pitch := 0, roll := 0 }
  let s := { s with effects := s.effects ++ [Effect.portReset] }
  let s := InitIMU N enc s
  { s with effects := s.effects ++ [Effect.taskStart] }

/-- Object memory and statics at program start, before any constructor ran:
statics as initialised in the file, members zero. -/
def IMU.blank : IMU :=
  { update_rate_hz := 0, yaw := 0, pitch := 0, roll := 0, compass_heading := 0,
    yaw_offset := 0, yaw_history := [], next_yaw_history_index := 0,
    last_update_time := 0, update_count := 0, byte_count := 0, stop := false,
    effects := [] }

/-- `IMUProtocol::decodeYPRUpdate(&protocol_buffer[i], bytes_remaining, yaw,
pitch, roll, compass_heading)`: given the `bytes_remaining` bytes from offset
`i` on and the current values of the four reference arguments, it returns
`packet_length` and the values of the reference arguments after the call. -/
abbrev Decoder := List Nat → YPR → Int × YPR

/-- What one iteration of the scan loop did at offset `offset`: the `else`
branch (`i++`) or the call `imu->SetYawPitchRoll(...)` with `sample`. -/
inductive ScanEvent where
  | failed (offset : Nat)
  | published (offset : Nat) (sample : YPR)
deriving DecidableEq

/-- Variables of the scan loop of `imuTask`: the index `i`, the locals
`yaw..compass_heading`, `packets_received`, the IMU and statics, and the record
of the iterations made so far (oldest first). -/
structure Scan where
  i : Nat
  locals : YPR
  packets_received : Int
  imu : IMU
  events : List ScanEvent
deriving DecidableEq

/-- One iteration of the body of `while ( i < bytes_read )` in `imuTask`;
`clock i` is the `Timer::GetPPCTimestamp()` reading taken if the attempt at
offset `i` publishes. `i` is a `UINT32` and `packet_length` an `int`; with
`i < bytes_read ≤ 1024` the sum `i + packet_length` stays below `2^32`, so the
addition is the one on natural numbers, and `packets_received`, at most
`bytes_read`, stays far below `2^31`. `update_count++` is on the 32-bit static
and wraps. -/
def scanStep (N : Nat) (dec : Decoder) (clock : Nat → ℚ) (chunk : List Nat) (st : Scan) : Scan :=
  let r := dec (chunk.drop st.i) st.locals
  let packet_length := r.1
  let locals := r.2
  if packet_length > 0 then
    { i := st.i + packet_length.toNat
      locals := locals
      packets_received := st.packets_received + 1
      imu := SetYawPitchRoll N (clock st.i) locals.yaw locals.pitch locals.roll
        locals.compass_heading
        { st.imu with update_count := wrapInt32 (st.imu.update_count + 1) }
      events := st.events ++ [ScanEvent.published st.i locals] }
  else
    { st with
      i := st.i + 1
      locals := locals
      events := st.events ++ [ScanEvent.failed st.i] }

/-- The loop `while ( i < bytes_read )` of `imuTask`, run for at most `fuel`
iterations: `none` when the fuel runs out before the loop condition fails. -/
def scanLoop (N : Nat) (dec : Decoder) (clock : Nat → ℚ) (chunk : List Nat) :
    Nat → Scan → Option Scan
  | 0, st => if st.i < chunk.length then none else some st
  | fuel + 1, st =>
    if st.i < chunk.length then scanLoop N dec clock chunk fuel (scanStep N dec clock chunk st)
    else some st

/-- Result of the `bytes_read > 0` branch of one iteration of the main loop. -/
structure ChunkResult where
  locals : YPR
  packets_received : Int
  imu : IMU
  events : List ScanEvent
deriving DecidableEq

/-- The branch `if ( bytes_read > 0 )` of the main loop of `imuTask` for the
bytes `chunk` returned by `pport->Read`. The scan loop gets `chunk.length`
iterations of fuel, one for every byte. `byte_count += bytes_read` is on the
32-bit static and wraps. -/
def processChunk (N : Nat) (dec : Decoder) (clock : Nat → ℚ) (chunk : List Nat)
    (locals : YPR) (s : IMU) : Option ChunkResult :=
  let bytes_read := chunk.length
  let s := { s with byte_count := wrapInt32 (s.byte_count + bytes_read) }
  match scanLoop N dec clock chunk bytes_read
      { i := 0, locals := locals, packets_received := 0, imu := s, events := [] } with
  | none => none
  | some st =>
    let imu :=
      if st.packets_received = 0 ∧ bytes_read = 256 then
        { st.imu with effects := st.imu.effects ++ [Effect.portReset] }
      else st.imu
    some { locals := st.locals, packets_received := st.packets_received, imu := imu,
           events := st.events }

/-- What the timeout branch of `imuTask` observes. `stop` is written by
`IMU::Restart` on another task, so every read of it is an input:
`stop_at k` is its value at the `k`-th evaluation of the polling loop's
condition and `stop_after` its value at the `if` that follows the loop.
`bytes_at k` is the result of the `k`-th call of `pport->GetBytesReceived()`.
`start_wait_timer` and `end_timer` are the two `Timer::GetFPGATimestamp()`
readings. -/
structure TimeoutEnv where
  start_wait_timer : ℚ
  stop_at : Nat → Bool
  bytes_at : Nat → Int
  stop_after : Bool
  end_timer : ℚ

/-- The polling loop `while ( !stop && ( bytes_received == 0 ) )` of the
timeout branch, started at its `k`-th condition check with at most `fuel`
further iterations; the result is the number of the check at which the loop
ended, `none` when the fuel runs out first. -/
def pollLoop (env : TimeoutEnv) : Nat → Nat → Option Nat
  | 0, k => if (!env.stop_at k) && env.bytes_at k == 0 then none else some k
  | fuel + 1, k =>
    if (!env.stop_at k) && env.bytes_at k == 0 then pollLoop env fuel (k + 1) else some k

/-- The `else` branch (read timed out) of the main loop of `imuTask`. -/
def timeoutBranch (enc : Nat → List Nat) (env : TimeoutEnv) (fuel : Nat) (s : IMU) :
    Option IMU :=
  match pollLoop env fuel 0 with
  | none => none
  | some k =>
    let bytes_received := env.bytes_at k
    if (!env.stop_after) && decide (bytes_received > 0) then
      if env.end_timer - env.start_wait_timer > 1 then
        let cmd := enc s.update_rate_hz
        let s := { s with effects := s.effects ++ [Effect.portWrite cmd] }
        let s := { s with effects := s.effects ++ [Effect.portFlush] }
        some { s with effects := s.effects ++ [Effect.portReset] }
      else some s
    else some s

/-- Calls a consumer can make on the IMU after construction. -/
inductive Op where
  | SetYawPitchRoll (yaw pitch roll compass_heading : ℚ)
  | ZeroYaw
  | GetYaw
  | GetPitch
  | GetRoll
  | GetCompassHeading
  | GetByteCount
  | GetUpdateCount
  | IsConnected
  | Restart
deriving DecidableEq

/-- State after the call `op` made when the clock reads `now`; the getters and
`IsConnected` only return a value. -/
def Op.exec (N : Nat) (now : ℚ) : Op → IMU → IMU
  | Op.SetYawPitchRoll y p r c, s => Nav6.SetYawPitchRoll N now y p r c s
  | Op.ZeroYaw, s => Nav6.ZeroYaw N s
  | Op.Restart, s => Nav6.Restart N s
  | Op.GetYaw, s => s
  | Op.GetPitch, s => s
  | Op.GetRoll, s => s
  | Op.GetCompassHeading, s => s
  | Op.GetByteCount, s => s
  | Op.GetUpdateCount, s => s
  | Op.IsConnected, s => s

/-- State after a sequence of calls, each paired with the clock reading at
which it is made. -/
def runOps (N : Nat) (s : IMU) (tr : List (Op × ℚ)) : IMU :=
  tr.foldl (fun s e => e.1.exec N e.2 s) s

/-- The clock readings of a sequence of calls are non-negative and
non-decreasing. -/
def ClockOk (tr : List (Op × ℚ)) : Prop :=
  (∀ e ∈ tr, 0 ≤ e.2) ∧ (tr.map Prod.snd).Pairwise (· ≤ ·)

/-- State after publishing the samples `xs` in order, each paired with the
clock reading of its publish. -/
def publishAll (N : Nat) (s : IMU) (xs : List (YPR × ℚ)) : IMU :=
  xs.foldl (fun s x => SetYawPitchRoll N x.2 x.1.yaw x.1.pitch x.1.roll x.1.compass_heading s) s

/-- State after appending the values `vs` to the yaw history in order, each
paired with the clock reading of its append. -/
def appendAll (N : Nat) (s : IMU) (vs : List (ℚ × ℚ)) : IMU :=
  vs.foldl (fun s v => UpdateYawHistory N v.2 v.1 s) s

/-- The call publishes a sample (`SetYawPitchRoll`). -/
def Op.isPublish : Op → Bool
  | Op.SetYawPitchRoll _ _ _ _ => true
  | _ => false

/-- The call is `Restart`. -/
def Op.isRestart : Op → Bool
  | Op.Restart => true
  | _ => false

/-- The iteration called `SetYawPitchRoll`. -/
def ScanEvent.isPublished : ScanEvent → Bool
  | ScanEvent.published _ _ => true
  | ScanEvent.failed _ => false

/-- Values of the locals `yaw..compass_heading` of `imuTask` after decode
attempts at the offsets `0..k-1` of `chunk`, each handing the reference
arguments on to the next. -/
def localsAfter (dec : Decoder) (chunk : List Nat) (locals : YPR) : Nat → YPR
  | 0 => locals
  | k + 1 => (dec (chunk.drop k) (localsAfter dec chunk locals k)).2

/-- Start offsets of the packets `pkts` laid end to end from offset `start`. -/
def packetOffsets : List (List Nat) → Nat → List Nat
  | [], _ => []
  | p :: ps, start => start :: packetOffsets ps (start + p.length)

/-- Values the decoder leaves in the reference arguments when it is called at
the start of each packet of `pkts` in turn (on the bytes from that packet to
the end of the chunk), starting from the locals `l`. -/
def decodedSamples (dec : Decoder) : List (List Nat) → YPR → List YPR
  | [], _ => []
  | p :: ps, l =>
    (dec (p :: ps).flatten l).2 :: decodedSamples dec ps (dec (p :: ps).flatten l).2

/-- Every packet of `pkts` is valid for `dec`: called at the start of a
packet, with the locals left by the call before, the decoder succeeds and
returns exactly that packet's length. -/
def ValidPackets (dec : Decoder) : List (List Nat) → YPR → Prop
  | [], _ => True
  | p :: ps, l =>
    0 < p.length ∧ (dec (p :: ps).flatten l).1 = (p.length : Int) ∧
      ValidPackets dec ps (dec (p :: ps).flatten l).2

/-- A small decoder used to instantiate the theorems on the scan loop: a packet
is the byte 33 followed by one byte, the yaw; anything else is rejected and
leaves the reference arguments as they were. -/
def toyDecoder : Decoder := fun buf l =>
  match buf with
  | 33 :: y :: _ => (2, { yaw := (y : ℚ), pitch := 0, roll := 0, compass_heading := 0 })
  | _ => (0, l)

/-! ## Yaw normalisation -/

/-- C1 (as stated) fails: with raw yaw 0 and offset -180, both in [-180, 180),
`GetYaw` returns 180, which is not below 180. -/
theorem GetYaw_not_below_180 :
    (-180 : ℚ) ≤ 0 ∧ (0 : ℚ) < 180 ∧ (-180 : ℚ) ≤ -180 ∧ (-180 : ℚ) < 180 ∧
      GetYaw { IMU.blank with yaw := 0, yaw_offset := -180 } = 180 ∧
      ¬ GetYaw { IMU.blank with yaw := 0, yaw_offset := -180 } < 180 := by
  norm_num [GetYaw, IMU.blank]

/-- C1 (amended): for raw yaw and offset each in [-180, 180), `GetYaw` returns
a value `r` with -180 ≤ r ≤ 180 that differs from `yaw - yaw_offset` by -360, 0
or 360, and `r = 180` happens only when `yaw - yaw_offset = 180`. -/
theorem GetYaw_normalized (s : IMU)
    (hy : -180 ≤ s.yaw ∧ s.yaw < 180) (ho : -180 ≤ s.yaw_offset ∧ s.yaw_offset < 180) :
    -180 ≤ GetYaw s ∧ GetYaw s ≤ 180 ∧
      (GetYaw s - (s.yaw - s.yaw_offset) = -360 ∨ GetYaw s - (s.yaw - s.yaw_offset) = 0 ∨
        GetYaw s - (s.yaw - s.yaw_offset) = 360) ∧
      (GetYaw s = 180 → s.yaw - s.yaw_offset = 180) := by
  obtain ⟨hy1, hy2⟩ := hy
  obtain ⟨ho1, ho2⟩ := ho
  unfold GetYaw
  by_cases h1 : s.yaw - s.yaw_offset < -180
  · have h2 : ¬ (s.yaw - s.yaw_offset + 360 > 180) := by linarith
    simp only [h1, h2, if_true, if_false]
    refine ⟨by linarith, by linarith, Or.inr (Or.inr (by ring)), fun h => by linarith⟩
  · by_cases h2 : s.yaw - s.yaw_offset > 180
    · simp only [h1, h2, if_true, if_false]
      refine ⟨by linarith, by linarith, Or.inl (by ring), fun h => by linarith⟩
    · simp only [h1, h2, if_false]
      refine ⟨by linarith, by linarith, Or.inr (Or.inl (by ring)), fun h => h⟩

/-- Instance of `GetYaw_normalized`: raw yaw 170 and offset -170 give -20. -/
theorem GetYaw_normalized_witness :
    GetYaw { IMU.blank with yaw := 170, yaw_offset := -170 } = -20 ∧
      -180 ≤ GetYaw { IMU.blank with yaw := 170, yaw_offset := -170 } ∧
      GetYaw { IMU.blank with yaw := 170, yaw_offset := -170 } ≤ 180 :=
  have h := GetYaw_normalized { IMU.blank with yaw := 170, yaw_offset := -170 }
    (by norm_num [IMU.blank]) (by norm_num [IMU.blank])
  ⟨by norm_num [GetYaw, IMU.blank], h.1, h.2.1⟩

/-! ## Connectivity predicate -/

theorem exec_last_update_time_of_other (N : Nat) (now : ℚ) (op : Op) (s : IMU)
    (hp : op.isPublish = false) (hr : op.isRestart = false) :
    (op.exec N now s).last_update_time = s.last_update_time := by
  cases op <;> simp_all [Op.exec, Op.isPublish, Op.isRestart, ZeroYaw]

theorem exec_Restart_last_update_time (N : Nat) (now : ℚ) (s : IMU) :
    (Op.Restart.exec N now s).last_update_time = 0 := by
  simp [Op.exec, Restart, InitializeYawHistory]

theorem runOps_append (N : Nat) (s : IMU) (tr tr2 : List (Op × ℚ)) :
    runOps N s (tr ++ tr2) = runOps N (runOps N s tr) tr2 := by
  simp [runOps, List.foldl_append]

theorem runOps_last_update_time_of_other (N : Nat) (tr : List (Op × ℚ)) :
    ∀ s : IMU, (∀ e ∈ tr, e.1.isPublish = false ∧ e.1.isRestart = false) →
      (runOps N s tr).last_update_time = s.last_update_time := by
  induction tr with
  | nil => intro s _; rfl
  | cons e tr ih =>
    intro s h
    have he := h e (List.mem_cons_self _ _)
    have ht : ∀ x ∈ tr, x.1.isPublish = false ∧ x.1.isRestart = false :=
      fun x hx => h x (List.mem_cons_of_mem _ hx)
    show (runOps N (e.1.exec N e.2 s) tr).last_update_time = s.last_update_time
    rw [ih _ ht, exec_last_update_time_of_other N e.2 e.1 s he.1 he.2]

theorem runOps_last_update_time_zero (N : Nat) (tr : List (Op × ℚ)) :
    ∀ s : IMU, s.last_update_time = 0 → (∀ e ∈ tr, e.1.isPublish = false) →
      (runOps N s tr).last_update_time = 0 := by
  induction tr with
  | nil => intro s hs _; exact hs
  | cons e tr ih =>
    intro s hs h
    have he := h e (List.mem_cons_self _ _)
    have ht : ∀ x ∈ tr, x.1.isPublish = false := fun x hx => h x (List.mem_cons_of_mem _ hx)
    show (runOps N (e.1.exec N e.2 s) tr).last_update_time = 0
    apply ih _ _ ht
    by_cases hr : e.1.isRestart = true
    · have : e.1 = Op.Restart := by
        cases h1 : e.1 <;> simp_all [Op.isRestart]
      rw [this]; exact exec_Restart_last_update_time N e.2 s
    · rw [exec_last_update_time_of_other N e.2 e.1 s he (by simpa using hr), hs]

/-- C2 (as stated) fails: right after `InitializeYawHistory`, with no sample
published, `IsConnected` queried at clock reading 1/2 returns true; and after
a publish stamped 5 followed by `Restart` (no later publish), `IsConnected`
queried at 11/2 returns false although 11/2 - 5 ≤ 1. -/
theorem IsConnected_true_before_publish :
    IsConnected (1 / 2) (InitializeYawHistory 10 IMU.blank) = true ∧
      IsConnected (11 / 2) (Restart 10 (SetYawPitchRoll 10 5 30 0 0 0 IMU.blank)) = false ∧
      (11 / 2 : ℚ) - 5 ≤ 1 := by
  norm_num [IsConnected, InitializeYawHistory, Restart]

/-- C2 (amended): while no sample has been published since
`InitializeYawHistory`, `IsConnected` at clock reading `now` is true exactly
when `now ≤ 1` (so it is false at every reading above 1); after a publish
stamped `t`, followed by calls that neither publish nor restart, `IsConnected`
at `now` is true exactly when `now - t ≤ 1`. -/
theorem IsConnected_iff (N : Nat) (s : IMU) (tr1 tr2 : List (Op × ℚ))
    (t yaw pitch roll compass_heading now : ℚ)
    (h1 : ∀ e ∈ tr1, e.1.isPublish = false)
    (h2 : ∀ e ∈ tr2, e.1.isPublish = false ∧ e.1.isRestart = false) :
    (IsConnected now (runOps N (InitializeYawHistory N s) tr1) = true ↔ now ≤ 1) ∧
      (IsConnected now
          (runOps N (SetYawPitchRoll N t yaw pitch roll compass_heading s) tr2) = true ↔
        now - t ≤ 1) := by
  constructor
  · unfold IsConnected
    rw [runOps_last_update_time_zero N tr1 _ (by simp [InitializeYawHistory]) h1]
    simp
  · unfold IsConnected
    rw [runOps_last_update_time_of_other N tr2 _ h2]
    simp [SetYawPitchRoll, UpdateYawHistory]

/-- Instance of `IsConnected_iff`: ten slots, queries at clock reading 5/2,
a publish stamped 2. -/
theorem IsConnected_iff_witness :
    (IsConnected (5 / 2)
        (runOps 10 (InitializeYawHistory 10 IMU.blank)
          [(Op.ZeroYaw, 1), (Op.Restart, 2)]) = true ↔ (5 / 2 : ℚ) ≤ 1) ∧
      (IsConnected (5 / 2)
          (runOps 10 (SetYawPitchRoll 10 2 30 0 0 0 IMU.blank) [(Op.GetYaw, 2)]) = true ↔
        (5 / 2 : ℚ) - 2 ≤ 1) :=
  IsConnected_iff 10 IMU.blank [(Op.ZeroYaw, 1), (Op.Restart, 2)] [(Op.GetYaw, 2)]
    2 30 0 0 0 (5 / 2) (by simp [Op.isPublish]) (by simp [Op.isPublish, Op.isRestart])

/-! ## Restart -/

/-- C6: `Restart` sets `update_count` and `byte_count` to 0 (so the two
getters return 0), makes the yaw history `N` zeros with the cursor at 0, and
leaves `yaw_offset` as it was. -/
theorem Restart_resets (N : Nat) (s : IMU) :
    (Restart N s).update_count = 0 ∧ (Restart N s).byte_count = 0 ∧
      GetUpdateCount (Restart N s) = 0 ∧ GetByteCount (Restart N s) = 0 ∧
      (Restart N s).yaw_history = List.replicate N 0 ∧
      (Restart N s).next_yaw_history_index = 0 ∧
      (Restart N s).yaw_offset = s.yaw_offset := by
  simp [Restart, InitializeYawHistory, GetUpdateCount, GetByteCount]

/-! ## Yaw history ring buffer -/

theorem yawWriteIndex_lt (N : Nat) (hN : 0 < N) (s : IMU) : yawWriteIndex N s < N := by
  unfold yawWriteIndex
  split
  · exact hN
  · omega

theorem succ_mod_wrap (N k : Nat) (hN : 0 < N) :
    (if N ≤ k % N + 1 then 0 else k % N + 1) = (k + 1) % N := by
  have hr : k % N < N := Nat.mod_lt _ hN
  split
  · next h =>
    have h1 : k % N + 1 = N := by omega
    rw [Nat.add_mod]
    by_cases h2 : N = 1
    · subst h2; simp [Nat.mod_one]
    · have h3 : 1 % N = 1 := Nat.mod_eq_of_lt (by omega)
      rw [h3, h1, Nat.mod_self]
  · next h =>
    have h1 : k % N + 1 < N := by omega
    have h3 : 1 % N = 1 := Nat.mod_eq_of_lt (by omega)
    rw [Nat.add_mod, h3, Nat.mod_eq_of_lt h1]

theorem yawWriteIndex_UpdateYawHistory (N : Nat) (now v : ℚ) (s : IMU) :
    yawWriteIndex N (UpdateYawHistory N now v s) =
      if N ≤ yawWriteIndex N s + 1 then 0 else yawWriteIndex N s + 1 := by
  simp [yawWriteIndex, UpdateYawHistory]

theorem mod_ne_of_lt_of_lt (N j k : Nat) (h1 : j < k) (h2 : k < j + N) : j % N ≠ k % N := by
  intro h
  have h3 : (k - j) % N = 0 := Nat.sub_mod_eq_zero_of_mod_eq h.symm
  have h4 : N ∣ k - j := Nat.dvd_of_mod_eq_zero h3
  have h5 : N ≤ k - j := Nat.le_of_dvd (by omega) h4
  omega

theorem appendAll_append (N : Nat) (s : IMU) (vs ws : List (ℚ × ℚ)) :
    appendAll N s (vs ++ ws) = appendAll N (appendAll N s vs) ws := by
  simp [appendAll, List.foldl_append]

/-- Invariant of the ring buffer after `InitializeYawHistory` and the appends
`vs`. -/
theorem appendAll_inv (N : Nat) (hN : 0 < N) (s0 : IMU) (vs : List (ℚ × ℚ)) :
    (appendAll N (InitializeYawHistory N s0) vs).yaw_history.length = N ∧
      yawWriteIndex N (appendAll N (InitializeYawHistory N s0) vs) = vs.length % N ∧
      (∀ j, j < vs.length → vs.length ≤ j + N →
        (appendAll N (InitializeYawHistory N s0) vs).yaw_history[j % N]? =
          vs[j]?.map Prod.fst) ∧
      (∀ i, vs.length ≤ i → i < N →
        (appendAll N (InitializeYawHistory N s0) vs).yaw_history[i]? = some 0) := by
  induction vs using List.reverseRecOn with
  | nil =>
    refine ⟨by simp [appendAll, InitializeYawHistory], ?_, ?_, ?_⟩
    · simp [appendAll, InitializeYawHistory, yawWriteIndex]
    · intro j hj; simp at hj
    · intro i _ hi
      simp [appendAll, InitializeYawHistory, List.getElem?_replicate, hi]
  | append_singleton vs v ih =>
    obtain ⟨hlen, hw, hslots, hzero⟩ := ih
    have hstep : appendAll N (InitializeYawHistory N s0) (vs ++ [v]) =
        UpdateYawHistory N v.2 v.1 (appendAll N (InitializeYawHistory N s0) vs) := by
      rw [appendAll_append]; rfl
    rw [hstep]
    have hhist : (UpdateYawHistory N v.2 v.1
        (appendAll N (InitializeYawHistory N s0) vs)).yaw_history =
        (appendAll N (InitializeYawHistory N s0) vs).yaw_history.set (vs.length % N) v.1 := by
      simp [UpdateYawHistory, hw]
    have hr : vs.length % N < N := Nat.mod_lt _ hN
    refine ⟨by rw [hhist, List.length_set, hlen], ?_, ?_, ?_⟩
    · rw [yawWriteIndex_UpdateYawHistory, hw, List.length_append, List.length_singleton]
      exact succ_mod_wrap N vs.length hN
    · intro j hj hjN
      rw [List.length_append, List.length_singleton] at hj hjN
      rw [hhist]
      by_cases hjk : j = vs.length
      · subst hjk
        rw [List.getElem?_set_self (by rw [hlen]; exact hr), List.getElem?_concat_length]
        rfl
      · have hj' : j < vs.length := by omega
        have hne : vs.length % N ≠ j % N :=
          fun h => mod_ne_of_lt_of_lt N j vs.length hj' (by omega) h.symm
        rw [List.getElem?_set_ne hne, List.getElem?_append_left hj']
        exact hslots j hj' (by omega)
    · intro i hi hiN
      rw [List.length_append, List.length_singleton] at hi
      rw [hhist]
      have hne : vs.length % N ≠ i := by
        have := Nat.mod_le vs.length N
        omega
      rw [List.getElem?_set_ne hne]
      exact hzero i (by omega) hiN

/-- C4: after `InitializeYawHistory` and the appends `v_1..v_k` (`vs`, each
with its clock reading), for every `j` with `max(1, k-N+1) ≤ j ≤ k` slot
`(j-1) mod N` holds `v_j`; every slot `i` with `k ≤ i < N` (never written)
holds 0; the `m+1`-th append writes at index `m mod N`, which is below `N`; and
the buffer still has `N` slots. -/
theorem yaw_history_holds_last_writes (N : Nat) (hN : 0 < N) (s0 : IMU)
    (vs : List (ℚ × ℚ)) :
    (∀ j, 1 ≤ j → vs.length + 1 ≤ j + N → j ≤ vs.length →
        (appendAll N (InitializeYawHistory N s0) vs).yaw_history[(j - 1) % N]? =
          vs[j - 1]?.map Prod.fst) ∧
      (∀ i, vs.length ≤ i → i < N →
        (appendAll N (InitializeYawHistory N s0) vs).yaw_history[i]? = some 0) ∧
      (∀ m, m < vs.length →
        yawWriteIndex N (appendAll N (InitializeYawHistory N s0) (vs.take m)) = m % N ∧
          m % N < N) ∧
      (appendAll N (InitializeYawHistory N s0) vs).yaw_history.length = N := by
  obtain ⟨hlen, _, hslots, hzero⟩ := appendAll_inv N hN s0 vs
  refine ⟨?_, hzero, ?_, hlen⟩
  · intro j h1 h2 h3
    exact hslots (j - 1) (by omega) (by omega)
  · intro m hm
    have h := (appendAll_inv N hN s0 (vs.take m)).2.1
    rw [List.length_take, Nat.min_eq_left (Nat.le_of_lt hm)] at h
    exact ⟨h, Nat.mod_lt _ hN⟩

/-- Instance of `yaw_history_holds_last_writes`: three slots, five appends
`1, 2, 3, 4, 5`; the buffer ends as `[4, 5, 3]`. -/
theorem yaw_history_holds_last_writes_witness :
    (appendAll 3 (InitializeYawHistory 3 IMU.blank)
        [(1, 0), (2, 0), (3, 0), (4, 0), (5, 0)]).yaw_history = [4, 5, 3] ∧
      (appendAll 3 (InitializeYawHistory 3 IMU.blank)
        [(1, 0), (2, 0), (3, 0), (4, 0), (5, 0)]).yaw_history.length = 3 :=
  ⟨by simp [appendAll, UpdateYawHistory, InitializeYawHistory, yawWriteIndex, IMU.blank],
    (yaw_history_holds_last_writes 3 (by decide) IMU.blank
      [(1, 0), (2, 0), (3, 0), (4, 0), (5, 0)]).2.2.2⟩

/-! ## Zeroing the yaw -/

theorem publishAll_append (N : Nat) (s : IMU) (xs ys : List (YPR × ℚ)) :
    publishAll N s (xs ++ ys) = publishAll N (publishAll N s xs) ys := by
  simp [publishAll, List.foldl_append]

/-- After publishing samples that all carry yaw `v`, the slots at the write
indices passed so far hold `v` and the cached yaw is `v`. -/
theorem publishAll_steady_inv (N : Nat) (hN : 0 < N) (s : IMU)
    (hs : s.yaw_history.length = N) (v : ℚ) (xs : List (YPR × ℚ))
    (hv : ∀ x ∈ xs, x.1.yaw = v) :
    (publishAll N s xs).yaw_history.length = N ∧
      yawWriteIndex N (publishAll N s xs) = (yawWriteIndex N s + xs.length) % N ∧
      (∀ t, t < xs.length →
        (publishAll N s xs).yaw_history[(yawWriteIndex N s + t) % N]? = some v) ∧
      (0 < xs.length → (publishAll N s xs).yaw = v) := by
  induction xs using List.reverseRecOn with
  | nil =>
    refine ⟨hs, ?_, ?_, ?_⟩
    · simp [publishAll, Nat.mod_eq_of_lt (yawWriteIndex_lt N hN s)]
    · intro t ht; simp at ht
    · intro h; simp at h
  | append_singleton xs x ih =>
    obtain ⟨hlen, hw, hslots, _⟩ := ih (fun y hy => hv y (List.mem_append_left _ hy))
    have hx : x.1.yaw = v := hv x (by simp)
    have hstep : publishAll N s (xs ++ [x]) =
        SetYawPitchRoll N x.2 x.1.yaw x.1.pitch x.1.roll x.1.compass_heading
          (publishAll N s xs) := by
      rw [publishAll_append]; rfl
    rw [hstep]
    have hhist : (SetYawPitchRoll N x.2 x.1.yaw x.1.pitch x.1.roll x.1.compass_heading
        (publishAll N s xs)).yaw_history =
        (publishAll N s xs).yaw_history.set ((yawWriteIndex N s + xs.length) % N) v := by
      rw [← hw, ← hx]; rfl
    have hidx : yawWriteIndex N
        (SetYawPitchRoll N x.2 x.1.yaw x.1.pitch x.1.roll x.1.compass_heading
          (publishAll N s xs)) =
        if N ≤ yawWriteIndex N (publishAll N s xs) + 1 then 0
        else yawWriteIndex N (publishAll N s xs) + 1 := by
      simp [yawWriteIndex, SetYawPitchRoll, UpdateYawHistory]
    have hr : (yawWriteIndex N s + xs.length) % N < N := Nat.mod_lt _ hN
    refine ⟨by rw [hhist, List.length_set, hlen], ?_, ?_, ?_⟩
    · rw [hidx, hw, List.length_append, List.length_singleton, ← Nat.add_assoc]
      exact succ_mod_wrap N _ hN
    · intro t ht
      rw [List.length_append, List.length_singleton] at ht
      rw [hhist, List.getElem?_set]
      split
      · rw [if_pos (by rw [hlen]; exact hr)]
      · exact hslots t (by
          rcases Nat.lt_or_ge t xs.length with h | h
          · exact h
          · have : t = xs.length := by omega
            subst this
            contradiction)
    · intro _
      simp [SetYawPitchRoll, UpdateYawHistory, hx]

theorem foldl_sum_const (f : Nat → ℚ) (v : ℚ) (n : Nat) (h : ∀ i, i < n → f i = v) :
    (List.range n).foldl (fun acc i => acc + f i) 0 = n * v := by
  induction n with
  | zero => simp
  | succ n ih =>
    rw [List.range_succ, List.foldl_append, ih (fun i hi => h i (by omega))]
    simp [h n (by omega)]
    ring

/-- C3: for a state whose yaw history has its `N` slots (`N > 0`), after `N`
consecutive publishes that all carry yaw `v`, `ZeroYaw` sets `yaw_offset` to
the yaw-history average, that average is exactly `v`, and `GetYaw` then returns
0. -/
theorem ZeroYaw_after_steady_yaw (N : Nat) (hN : 0 < N) (s : IMU)
    (hs : s.yaw_history.length = N) (v : ℚ) (xs : List (YPR × ℚ))
    (hlen : xs.length = N) (hv : ∀ x ∈ xs, x.1.yaw = v) :
    (ZeroYaw N (publishAll N s xs)).yaw_offset =
        GetAverageFromYawHistory N (publishAll N s xs) ∧
      GetAverageFromYawHistory N (publishAll N s xs) = v ∧
      GetYaw (ZeroYaw N (publishAll N s xs)) = 0 := by
  obtain ⟨_, _, hslots, hyaw⟩ := publishAll_steady_inv N hN s hs v xs hv
  have hw := yawWriteIndex_lt N hN s
  have hall : ∀ i, i < N → (publishAll N s xs).yaw_history.getD i 0 = v := by
    intro i hi
    have key : ∃ t, t < xs.length ∧ (yawWriteIndex N s + t) % N = i := by
      by_cases hc : yawWriteIndex N s ≤ i
      · refine ⟨i - yawWriteIndex N s, by omega, ?_⟩
        rw [Nat.add_sub_cancel' hc, Nat.mod_eq_of_lt hi]
      · refine ⟨i + N - yawWriteIndex N s, by omega, ?_⟩
        have : yawWriteIndex N s + (i + N - yawWriteIndex N s) = i + N := by omega
        rw [this, Nat.add_mod_right, Nat.mod_eq_of_lt hi]
    obtain ⟨t, ht, hti⟩ := key
    have := hslots t ht
    rw [hti] at this
    rw [List.getD_eq_getElem?_getD, this]
    rfl
  have havg : GetAverageFromYawHistory N (publishAll N s xs) = v := by
    unfold GetAverageFromYawHistory
    rw [foldl_sum_const _ v N hall]
    have : (N : ℚ) ≠ 0 := by exact_mod_cast (Nat.pos_iff_ne_zero.mp hN)
    field_simp
  refine ⟨rfl, havg, ?_⟩
  have hy : (publishAll N s xs).yaw = v := hyaw (by omega)
  norm_num [GetYaw, ZeroYaw, havg, hy]

/-- Instance of `ZeroYaw_after_steady_yaw`: three slots, a history left at
`[7, 8, 9]` with the cursor at 2, then three publishes of yaw 45. -/
theorem ZeroYaw_after_steady_yaw_witness :
    GetAverageFromYawHistory 3
        (publishAll 3 { IMU.blank with yaw_history := [7, 8, 9], next_yaw_history_index := 2 }
          [(⟨45, 1, 2, 3⟩, 10), (⟨45, 0, 0, 0⟩, 11), (⟨45, 5, 5, 5⟩, 12)]) = 45 ∧
      GetYaw (ZeroYaw 3
        (publishAll 3 { IMU.blank with yaw_history := [7, 8, 9], next_yaw_history_index := 2 }
          [(⟨45, 1, 2, 3⟩, 10), (⟨45, 0, 0, 0⟩, 11), (⟨45, 5, 5, 5⟩, 12)])) = 0 :=
  (ZeroYaw_after_steady_yaw 3 (by decide)
    { IMU.blank with yaw_history := [7, 8, 9], next_yaw_history_index := 2 } (by rfl) 45
    [(⟨45, 1, 2, 3⟩, 10), (⟨45, 0, 0, 0⟩, 11), (⟨45, 5, 5, 5⟩, 12)] (by rfl)
    (by simp)).2

/-! ## Monotonicity of `last_update_time` -/

theorem exec_publish_last_update_time (N : Nat) (now : ℚ) (op : Op) (s : IMU)
    (hp : op.isPublish = true) : (op.exec N now s).last_update_time = now := by
  cases op <;> simp_all [Op.exec, Op.isPublish, SetYawPitchRoll, UpdateYawHistory]

theorem Op.eq_Restart_of_isRestart (op : Op) (h : op.isRestart = true) : op = Op.Restart := by
  cases op <;> simp_all [Op.isRestart]

/-- Starting from `last_update_time = 0`, the stamp never exceeds a bound that
is non-negative and above every clock reading of the calls made. -/
theorem runOps_last_update_time_le (N : Nat) (s : IMU) (hs : s.last_update_time = 0)
    (b : ℚ) (hb : 0 ≤ b) (tr : List (Op × ℚ)) (htr : ∀ e ∈ tr, e.2 ≤ b) :
    (runOps N s tr).last_update_time ≤ b := by
  induction tr using List.reverseRecOn with
  | nil => simp [runOps, hs, hb]
  | append_singleton tr e ih =>
    have ih := ih (fun x hx => htr x (List.mem_append_left _ hx))
    have he : e.2 ≤ b := htr e (by simp)
    rw [runOps_append]
    show (e.1.exec N e.2 (runOps N s tr)).last_update_time ≤ b
    by_cases hp : e.1.isPublish = true
    · rw [exec_publish_last_update_time N e.2 e.1 _ hp]; exact he
    · by_cases hr : e.1.isRestart = true
      · rw [Op.eq_Restart_of_isRestart e.1 hr, exec_Restart_last_update_time]; exact hb
      · rw [exec_last_update_time_of_other N e.2 e.1 _ (by simpa using hp) (by simpa using hr)]
        exact ih

theorem ctor_last_update_time (N : Nat) (enc : Nat → List Nat) (rate : Nat) (mem : IMU) :
    (IMU.ctor N enc rate mem).last_update_time = 0 := by
  simp [IMU.ctor, InitIMU, InitializeYawHistory]

/-- C5 (as stated) fails: with clock readings 5 then 6 (non-negative,
non-decreasing), a publish stamps `last_update_time = 5` and the `Restart` that
follows leaves it at 0, smaller than before and changed without a publish. -/
theorem Restart_lowers_last_update_time :
    ClockOk [(Op.SetYawPitchRoll 10 0 0 0, 5), (Op.Restart, 6)] ∧
      (runOps 10 (IMU.ctor 10 (fun _ => []) 50 IMU.blank)
        [(Op.SetYawPitchRoll 10 0 0 0, 5)]).last_update_time = 5 ∧
      (runOps 10 (IMU.ctor 10 (fun _ => []) 50 IMU.blank)
        [(Op.SetYawPitchRoll 10 0 0 0, 5), (Op.Restart, 6)]).last_update_time = 0 ∧
      (runOps 10 (IMU.ctor 10 (fun _ => []) 50 IMU.blank)
        [(Op.SetYawPitchRoll 10 0 0 0, 5), (Op.Restart, 6)]).last_update_time <
        (runOps 10 (IMU.ctor 10 (fun _ => []) 50 IMU.blank)
          [(Op.SetYawPitchRoll 10 0 0 0, 5)]).last_update_time := by
  refine ⟨⟨?_, ?_⟩, ?_, ?_, ?_⟩ <;>
    norm_num [runOps, Op.exec, Restart, InitializeYawHistory, SetYawPitchRoll,
      UpdateYawHistory, IMU.ctor, InitIMU]

/-- C5 (amended): after construction, along any sequence of calls `pre`
followed by the call `op` at clock reading `now`, with clock readings
non-negative and non-decreasing: a call other than `Restart` never leaves
`last_update_time` smaller than before; `last_update_time` changes only when
the call is a publish or `Restart`; and `Restart` resets it to 0. -/
theorem last_update_time_monotone (N : Nat) (enc : Nat → List Nat) (rate : Nat) (mem : IMU)
    (pre : List (Op × ℚ)) (op : Op) (now : ℚ) (hclock : ClockOk (pre ++ [(op, now)])) :
    (op.isRestart = false →
        (runOps N (IMU.ctor N enc rate mem) pre).last_update_time ≤
          (runOps N (IMU.ctor N enc rate mem) (pre ++ [(op, now)])).last_update_time) ∧
      ((runOps N (IMU.ctor N enc rate mem) (pre ++ [(op, now)])).last_update_time ≠
          (runOps N (IMU.ctor N enc rate mem) pre).last_update_time →
        op.isPublish = true ∨ op.isRestart = true) ∧
      (op.isRestart = true →
        (runOps N (IMU.ctor N enc rate mem) (pre ++ [(op, now)])).last_update_time = 0) := by
  obtain ⟨hnn, hpw⟩ := hclock
  have hnow : 0 ≤ now := hnn (op, now) (by simp)
  have hpre : ∀ e ∈ pre, e.2 ≤ now := by
    intro e he
    rw [List.map_append, List.pairwise_append] at hpw
    exact hpw.2.2 e.2 (List.mem_map_of_mem _ he) now (by simp)
  have hle := runOps_last_update_time_le N (IMU.ctor N enc rate mem)
    (ctor_last_update_time N enc rate mem) now hnow pre hpre
  have hstep : runOps N (IMU.ctor N enc rate mem) (pre ++ [(op, now)]) =
      op.exec N now (runOps N (IMU.ctor N enc rate mem) pre) := by
    rw [runOps_append]; rfl
  rw [hstep]
  refine ⟨?_, ?_, ?_⟩
  · intro hr
    by_cases hp : op.isPublish = true
    · rw [exec_publish_last_update_time N now op _ hp]; exact hle
    · rw [exec_last_update_time_of_other N now op _ (by simpa using hp) hr]
  · intro hne
    by_contra hcon
    push_neg at hcon
    exact hne (exec_last_update_time_of_other N now op _ (by simpa using hcon.1)
      (by simpa using hcon.2))
  · intro hr
    rw [Op.eq_Restart_of_isRestart op hr, exec_Restart_last_update_time]

/-- Instance of `last_update_time_monotone`: publishes at clock readings 5 and
6 with a `ZeroYaw` between them. -/
theorem last_update_time_monotone_witness :
    (runOps 10 (IMU.ctor 10 (fun _ => []) 50 IMU.blank)
        [(Op.SetYawPitchRoll 10 0 0 0, 5), (Op.ZeroYaw, 5)]).last_update_time ≤
      (runOps 10 (IMU.ctor 10 (fun _ => []) 50 IMU.blank)
        ([(Op.SetYawPitchRoll 10 0 0 0, 5), (Op.ZeroYaw, 5)] ++
          [(Op.SetYawPitchRoll 20 0 0 0, 6)])).last_update_time :=
  (last_update_time_monotone 10 (fun _ => []) 50 IMU.blank
    [(Op.SetYawPitchRoll 10 0 0 0, 5), (Op.ZeroYaw, 5)] (Op.SetYawPitchRoll 20 0 0 0) 6
    ⟨by norm_num, by norm_num⟩).1 rfl

/-! ## The scan loop of `imuTask` -/

theorem wrapInt32_wrapInt32_add (x k : Int) :
    wrapInt32 (wrapInt32 x + k) = wrapInt32 (x + k) := by
  unfold wrapInt32
  omega

theorem wrapInt32_of_inRange (x : Int) (h1 : -2147483648 ≤ x) (h2 : x ≤ 2147483647) :
    wrapInt32 x = x := by
  unfold wrapInt32
  omega

theorem scanStep_i_lt (N : Nat) (dec : Decoder) (clock : Nat → ℚ) (chunk : List Nat)
    (st : Scan) : st.i < (scanStep N dec clock chunk st).i := by
  unfold scanStep
  by_cases h : (dec (chunk.drop st.i) st.locals).1 > 0
  · simp only [h, if_true]
    have : 0 < (dec (chunk.drop st.i) st.locals).1.toNat := by omega
    omega
  · simp only [h, if_false]
    omega

/-- The scan loop ends (the fuel suffices) as soon as the fuel covers the
bytes not yet scanned. -/
theorem scanLoop_terminates (N : Nat) (dec : Decoder) (clock : Nat → ℚ) (chunk : List Nat) :
    ∀ (fuel : Nat) (st : Scan), chunk.length ≤ st.i + fuel →
      ∃ st', scanLoop N dec clock chunk fuel st = some st' := by
  intro fuel
  induction fuel with
  | zero =>
    intro st h
    exact ⟨st, by simp [scanLoop]; omega⟩
  | succ fuel ih =>
    intro st h
    by_cases hi : st.i < chunk.length
    · have hlt := scanStep_i_lt N dec clock chunk st
      obtain ⟨st', hst'⟩ := ih (scanStep N dec clock chunk st) (by omega)
      exact ⟨st', by simp [scanLoop, hi, hst']⟩
    · exact ⟨st, by simp [scanLoop, hi]⟩

/-- What every completed run of the scan loop preserves: the record only grows,
`packets_received` grows by the number of publishes and `update_count` by the
same number in 32-bit arithmetic, the port log and `byte_count` are untouched,
the loop ends with `i ≥ bytes_read`, and without a publish the IMU is
unchanged. -/
theorem scanLoop_inv (N : Nat) (dec : Decoder) (clock : Nat → ℚ) (chunk : List Nat) :
    ∀ (fuel : Nat) (st st' : Scan), scanLoop N dec clock chunk fuel st = some st' →
      ∃ tail, st'.events = st.events ++ tail ∧
        st'.packets_received =
          st.packets_received + ((tail.filter ScanEvent.isPublished).length : Int) ∧
        st'.imu.update_count =
          (if (tail.filter ScanEvent.isPublished).length = 0 then st.imu.update_count
           else wrapInt32
            (st.imu.update_count + ((tail.filter ScanEvent.isPublished).length : Int))) ∧
        st'.imu.effects = st.imu.effects ∧ st'.imu.byte_count = st.imu.byte_count ∧
        chunk.length ≤ st'.i ∧
        ((tail.filter ScanEvent.isPublished).length = 0 → st'.imu = st.imu) := by
  intro fuel
  induction fuel with
  | zero =>
    intro st st' h
    by_cases hi : st.i < chunk.length
    · simp [scanLoop, hi] at h
    · simp [scanLoop, hi] at h
      subst h
      exact ⟨[], by simp, by simp, by simp, rfl, rfl, by omega, fun _ => rfl⟩
  | succ fuel ih =>
    intro st st' h
    by_cases hi : st.i < chunk.length
    · simp only [scanLoop, hi, if_true] at h
      obtain ⟨tail, h1, h2, h3, h4, h5, h6, h7⟩ := ih _ _ h
      by_cases hd : (dec (chunk.drop st.i) st.locals).1 > 0
      · refine ⟨ScanEvent.published st.i (dec (chunk.drop st.i) st.locals).2 :: tail,
          ?_, ?_, ?_, ?_, ?_, h6, ?_⟩
        · rw [h1]; simp [scanStep, hd]
        · rw [h2]; simp [scanStep, hd, ScanEvent.isPublished]; ring
        · rw [h3]
          have hu : (scanStep N dec clock chunk st).imu.update_count =
              wrapInt32 (st.imu.update_count + 1) := by
            simp [scanStep, hd, SetYawPitchRoll, UpdateYawHistory]
          rw [hu]
          have hcount : ((ScanEvent.published st.i (dec (chunk.drop st.i) st.locals).2 ::
              tail).filter ScanEvent.isPublished).length =
              (tail.filter ScanEvent.isPublished).length + 1 := by
            simp [ScanEvent.isPublished]
          rw [hcount, if_neg (Nat.succ_ne_zero _)]
          by_cases h0 : (tail.filter ScanEvent.isPublished).length = 0
          · rw [if_pos h0, h0]; simp
          · rw [if_neg h0, wrapInt32_wrapInt32_add]
            congr 1
            push_cast
            ring
        · rw [h4]; simp [scanStep, hd, SetYawPitchRoll, UpdateYawHistory]
        · rw [h5]; simp [scanStep, hd, SetYawPitchRoll, UpdateYawHistory]
        · intro h0; simp [ScanEvent.isPublished] at h0
      · refine ⟨ScanEvent.failed st.i :: tail, ?_, ?_, ?_, ?_, ?_, h6, ?_⟩
        · rw [h1]; simp [scanStep, hd]
        · rw [h2]; simp [scanStep, hd, ScanEvent.isPublished]
        · rw [h3]; simp [scanStep, hd, ScanEvent.isPublished]
        · rw [h4]; simp [scanStep, hd]
        · rw [h5]; simp [scanStep, hd]
        · intro h0
          rw [h7 (by simpa [ScanEvent.isPublished] using h0)]
          simp [scanStep, hd]
    · simp [scanLoop, hi] at h
      subst h
      exact ⟨[], by simp, by simp, by simp, rfl, rfl, by omega, fun _ => rfl⟩

/-- As long as decoding fails, the scan loop walks the offsets `0, 1, ..` one
byte at a time: `K` failed attempts take `K` iterations and leave `i = K`. -/
theorem scanLoop_failures (N : Nat) (dec : Decoder) (clock : Nat → ℚ) (chunk : List Nat)
    (locals : YPR) (imu : IMU) :
    ∀ K : Nat, K ≤ chunk.length →
      (∀ j, j < K → (dec (chunk.drop j) (localsAfter dec chunk locals j)).1 ≤ 0) →
      ∀ fuel : Nat,
        scanLoop N dec clock chunk (fuel + K)
            { i := 0, locals := locals, packets_received := 0, imu := imu, events := [] } =
          scanLoop N dec clock chunk fuel
            { i := K, locals := localsAfter dec chunk locals K, packets_received := 0,
              imu := imu, events := (List.range K).map ScanEvent.failed } := by
  intro K
  induction K with
  | zero => intro _ _ fuel; rfl
  | succ K ih =>
    intro hK hfail fuel
    have h1 := ih (by omega) (fun j hj => hfail j (by omega)) (fuel + 1)
    have h2 : fuel + (K + 1) = fuel + 1 + K := by omega
    rw [h2, h1]
    have hK' : K < chunk.length := by omega
    have hd : ¬ (dec (chunk.drop K) (localsAfter dec chunk locals K)).1 > 0 := by
      have := hfail K (by omega)
      omega
    simp [scanLoop, hK', scanStep, hd, localsAfter, List.range_succ]

/-- C9: processing a chunk always ends; `packets_received` is the number of
publishes made from the chunk and `update_count` grows by it (in 32-bit
arithmetic, so by exactly that number when the sum stays in the `int` range);
the chunk-processing step appends exactly one `Reset` to the port log when no
packet was decoded and the chunk is 256 bytes long (and then nothing was
published, `update_count` is unchanged and the IMU differs from the state
before only in `byte_count` and that `Reset`), and leaves the port log
unchanged otherwise; when decoding fails at every offset of the chunk, no packet is
decoded and every attempt is a failure. -/
theorem processChunk_reset (N : Nat) (dec : Decoder) (clock : Nat → ℚ) (chunk : List Nat)
    (locals : YPR) (s : IMU) :
    ∃ r, processChunk N dec clock chunk locals s = some r ∧
      r.packets_received = ((r.events.filter ScanEvent.isPublished).length : Int) ∧
      r.imu.update_count =
        (if r.packets_received = 0 then s.update_count
         else wrapInt32 (s.update_count + r.packets_received)) ∧
      (-2147483648 ≤ s.update_count → s.update_count + r.packets_received ≤ 2147483647 →
        r.imu.update_count = s.update_count + r.packets_received) ∧
      (r.packets_received = 0 ∧ chunk.length = 256 →
        r.imu.effects = s.effects ++ [Effect.portReset] ∧
          (∀ e ∈ r.events, e.isPublished = false) ∧ r.imu.update_count = s.update_count ∧
          r.imu = { s with byte_count := wrapInt32 (s.byte_count + chunk.length)
                           effects := s.effects ++ [Effect.portReset] }) ∧
      (¬ (r.packets_received = 0 ∧ chunk.length = 256) → r.imu.effects = s.effects) ∧
      ((∀ j, j < chunk.length → (dec (chunk.drop j) (localsAfter dec chunk locals j)).1 ≤ 0) →
        r.packets_received = 0 ∧ r.events = (List.range chunk.length).map ScanEvent.failed) := by
  obtain ⟨st', hst'⟩ := scanLoop_terminates N dec clock chunk chunk.length
    { i := 0, locals := locals, packets_received := 0,
      imu := { s with byte_count := wrapInt32 (s.byte_count + chunk.length) }, events := [] } (by simp)
  obtain ⟨tail, h1, h2, h3, h4, _, _, h7⟩ := scanLoop_inv N dec clock chunk _ _ _ hst'
  simp only [List.nil_append, zero_add] at h1 h2 h3 h4 h7
  have hfail : (∀ j, j < chunk.length →
      (dec (chunk.drop j) (localsAfter dec chunk locals j)).1 ≤ 0) →
      st'.packets_received = 0 ∧ st'.events = (List.range chunk.length).map ScanEvent.failed := by
    intro hall
    have h := scanLoop_failures N dec clock chunk locals
      { s with byte_count := wrapInt32 (s.byte_count + chunk.length) } chunk.length (le_refl _) hall 0
    rw [Nat.zero_add, hst'] at h
    simp [scanLoop] at h
    rw [h]
    exact ⟨rfl, rfl⟩
  have hu : st'.imu.update_count =
      (if st'.packets_received = 0 then s.update_count
       else wrapInt32 (s.update_count + st'.packets_received)) := by
    rw [h3, h2]
    simp
  have hu2 : -2147483648 ≤ s.update_count →
      s.update_count + st'.packets_received ≤ 2147483647 →
      st'.imu.update_count = s.update_count + st'.packets_received := by
    intro ha hb
    rw [hu]
    split
    · next h0 => rw [h0]; simp
    · exact wrapInt32_of_inRange _ (by rw [h2]; omega) hb
  by_cases hc : st'.packets_received = 0 ∧ chunk.length = 256
  · refine ⟨ChunkResult.mk st'.locals st'.packets_received
        { st'.imu with effects := st'.imu.effects ++ [Effect.portReset] } st'.events,
        ?_, ?_, hu, hu2, ?_, ?_, hfail⟩
    · simp only [processChunk, hst']
      simp [hc]
    · simp [h1, h2]
    · intro _
      have h0 : (tail.filter ScanEvent.isPublished).length = 0 := by
        have := hc.1
        rw [h2] at this
        exact_mod_cast this
      refine ⟨by simp [h4], ?_, by simp [hu, hc.1], by simp [h7 h0]⟩
      intro e he
      rw [h1] at he
      by_contra hne
      have : e ∈ tail.filter ScanEvent.isPublished :=
        List.mem_filter.mpr ⟨he, by simpa using hne⟩
      rw [List.length_eq_zero.mp h0] at this
      simp at this
    · intro hn; exact absurd hc hn
  · refine ⟨ChunkResult.mk st'.locals st'.packets_received st'.imu st'.events,
        ?_, ?_, hu, hu2, ?_, ?_, hfail⟩
    · simp only [processChunk, hst']
      simp [hc]
    · simp [h1, h2]
    · intro hn; exact absurd hn hc
    · intro _; simp [h4]

/-- Instance of `processChunk_reset`: a 256-byte chunk of zeros with a decoder
that rejects every offset gives one `Reset`, no publish and an unchanged
`update_count`. -/
theorem processChunk_reset_witness :
    ∃ r, processChunk 10 (fun _ l => (0, l)) (fun _ => 0) (List.replicate 256 0)
        ⟨0, 0, 0, 0⟩ IMU.blank = some r ∧
      r.imu.effects = [Effect.portReset] ∧ r.imu.update_count = 0 ∧
      (∀ e ∈ r.events, e.isPublished = false) := by
  obtain ⟨r, hr, _, _, _, h3, _, h5⟩ := processChunk_reset 10 (fun _ l => (0, l)) (fun _ => 0)
    (List.replicate 256 0) ⟨0, 0, 0, 0⟩ IMU.blank
  have h0 := (h5 (by intro j _; simp)).1
  have h := h3 ⟨h0, List.length_replicate 256 0⟩
  exact ⟨r, hr, by simpa [IMU.blank] using h.1, by simpa [IMU.blank] using h.2.2.1, h.2.1⟩

theorem processChunk_of_scanLoop (N : Nat) (dec : Decoder) (clock : Nat → ℚ)
    (chunk : List Nat) (locals : YPR) (s : IMU) (st : Scan)
    (h : scanLoop N dec clock chunk chunk.length
      { i := 0, locals := locals, packets_received := 0,
        imu := { s with byte_count := wrapInt32 (s.byte_count + chunk.length) }, events := [] } = some st) :
    processChunk N dec clock chunk locals s =
      some (ChunkResult.mk st.locals st.packets_received
        (if st.packets_received = 0 ∧ chunk.length = 256 then
          { st.imu with effects := st.imu.effects ++ [Effect.portReset] }
         else st.imu) st.events) := by
  simp only [processChunk, h]

/-- `K` iterations of the loop body that all fail leave `i = K` and a record
of `K` failures. -/
theorem scanStep_iterate_failures (N : Nat) (dec : Decoder) (clock : Nat → ℚ)
    (chunk : List Nat) (locals : YPR) (imu : IMU) :
    ∀ K : Nat,
      (∀ j, j < K → (dec (chunk.drop j) (localsAfter dec chunk locals j)).1 ≤ 0) →
      (scanStep N dec clock chunk)^[K]
          { i := 0, locals := locals, packets_received := 0, imu := imu, events := [] } =
        { i := K, locals := localsAfter dec chunk locals K, packets_received := 0,
          imu := imu, events := (List.range K).map ScanEvent.failed } := by
  intro K
  induction K with
  | zero => intro _; rfl
  | succ K ih =>
    intro hfail
    rw [Function.iterate_succ_apply', ih (fun j hj => hfail j (by omega))]
    have hd : ¬ (dec (chunk.drop K) (localsAfter dec chunk locals K)).1 > 0 := by
      have := hfail K (by omega)
      omega
    simp [scanStep, hd, localsAfter, List.range_succ]

/-- C7: when decoding fails at each of the offsets `0..K-1` and succeeds at
offset `K < bytes_read`, processing the chunk ends, its first `K` iterations
are failed attempts at the offsets `0, 1, .., K-1` in that order, and iteration
`K+1` is at offset `K` and calls `SetYawPitchRoll` with the sample decoded
there (the first publish from the chunk); after those `K+1` iterations the IMU
is the state before the chunk with `byte_count` raised by `bytes_read` and
`update_count` raised by 1 (both in 32-bit arithmetic) and that sample
published, and `i` has advanced by the packet length. -/
theorem scan_finds_packet_after_garbage (N : Nat) (dec : Decoder) (clock : Nat → ℚ)
    (chunk : List Nat) (locals : YPR) (s : IMU) (K : Nat) (hK : K < chunk.length)
    (hfail : ∀ j, j < K → (dec (chunk.drop j) (localsAfter dec chunk locals j)).1 ≤ 0)
    (hok : 0 < (dec (chunk.drop K) (localsAfter dec chunk locals K)).1) :
    ∃ r, processChunk N dec clock chunk locals s = some r ∧
      r.events.take K = (List.range K).map ScanEvent.failed ∧
      r.events[K]? =
        some (ScanEvent.published K (dec (chunk.drop K) (localsAfter dec chunk locals K)).2) ∧
      ((scanStep N dec clock chunk)^[K + 1]
          { i := 0, locals := locals, packets_received := 0,
            imu := { s with byte_count := wrapInt32 (s.byte_count + chunk.length) }, events := [] }).imu =
        SetYawPitchRoll N (clock K)
          (dec (chunk.drop K) (localsAfter dec chunk locals K)).2.yaw
          (dec (chunk.drop K) (localsAfter dec chunk locals K)).2.pitch
          (dec (chunk.drop K) (localsAfter dec chunk locals K)).2.roll
          (dec (chunk.drop K) (localsAfter dec chunk locals K)).2.compass_heading
          { s with byte_count := wrapInt32 (s.byte_count + chunk.length)
                   update_count := wrapInt32 (s.update_count + 1) } ∧
      ((scanStep N dec clock chunk)^[K + 1]
          { i := 0, locals := locals, packets_received := 0,
            imu := { s with byte_count := wrapInt32 (s.byte_count + chunk.length) }, events := [] }).i =
        K + (dec (chunk.drop K) (localsAfter dec chunk locals K)).1.toNat := by
  have hsplit : chunk.length = (chunk.length - K - 1 + 1) + K := by omega
  have hrun := scanLoop_failures N dec clock chunk locals
    { s with byte_count := wrapInt32 (s.byte_count + chunk.length) } K (by omega) hfail
    (chunk.length - K - 1 + 1)
  rw [← hsplit] at hrun
  simp only [scanLoop, hK, if_true] at hrun
  have hpos : 0 < (dec (chunk.drop K) (localsAfter dec chunk locals K)).1.toNat := by omega
  obtain ⟨st', hst'⟩ := scanLoop_terminates N dec clock chunk (chunk.length - K - 1)
    (scanStep N dec clock chunk
      { i := K, locals := localsAfter dec chunk locals K, packets_received := 0,
        imu := { s with byte_count := wrapInt32 (s.byte_count + chunk.length) },
        events := (List.range K).map ScanEvent.failed })
    (by simp only [scanStep, hok, gt_iff_lt, if_true]; omega)
  rw [hst'] at hrun
  obtain ⟨tail, htail, _⟩ := scanLoop_inv N dec clock chunk _ _ _ hst'
  have hev : st'.events = (List.range K).map ScanEvent.failed ++
      (ScanEvent.published K (dec (chunk.drop K) (localsAfter dec chunk locals K)).2 ::
        tail) := by
    rw [htail]; simp [scanStep, hok]
  have hlenK : ((List.range K).map ScanEvent.failed).length = K := by simp
  refine ⟨_, processChunk_of_scanLoop N dec clock chunk locals s st' hrun, ?_, ?_, ?_, ?_⟩
  · show st'.events.take K = _
    rw [hev, List.take_left' hlenK]
  · show st'.events[K]? = _
    rw [hev, List.getElem?_append_right (by rw [hlenK]), hlenK]
    simp
  · rw [Function.iterate_succ_apply', scanStep_iterate_failures N dec clock chunk locals _ K hfail]
    simp [scanStep, hok]
  · rw [Function.iterate_succ_apply', scanStep_iterate_failures N dec clock chunk locals _ K hfail]
    simp [scanStep, hok]

/-- Instance of `scan_finds_packet_after_garbage`: two garbage bytes, then the
packet `33 45`, then one more byte. -/
theorem scan_finds_packet_after_garbage_witness :
    ∃ r, processChunk 10 toyDecoder (fun _ => 0) [7, 8, 33, 45, 9] ⟨0, 0, 0, 0⟩ IMU.blank =
        some r ∧
      r.events.take 2 = [ScanEvent.failed 0, ScanEvent.failed 1] ∧
      r.events[2]? = some (ScanEvent.published 2 ⟨45, 0, 0, 0⟩) := by
  obtain ⟨r, hr, h1, h2, _⟩ := scan_finds_packet_after_garbage 10 toyDecoder (fun _ => 0)
    [7, 8, 33, 45, 9] ⟨0, 0, 0, 0⟩ IMU.blank 2 (by simp)
    (by intro j hj; interval_cases j <;> simp [toyDecoder, localsAfter])
    (by simp [toyDecoder, localsAfter])
  refine ⟨r, hr, ?_, ?_⟩
  · rw [h1]; rfl
  · rw [h2]; simp [toyDecoder, localsAfter]

theorem publishAll_update_count (N : Nat) (xs : List (YPR × ℚ)) :
    ∀ (s : IMU) (u : Int),
      publishAll N { s with update_count := u } xs =
        { publishAll N s xs with update_count := u } := by
  induction xs with
  | nil => intro s u; rfl
  | cons x xs ih =>
    intro s u
    show publishAll N (SetYawPitchRoll N x.2 x.1.yaw x.1.pitch x.1.roll x.1.compass_heading
        { s with update_count := u }) xs = _
    have h : SetYawPitchRoll N x.2 x.1.yaw x.1.pitch x.1.roll x.1.compass_heading
        { s with update_count := u } =
        { SetYawPitchRoll N x.2 x.1.yaw x.1.pitch x.1.roll x.1.compass_heading s with
          update_count := u } := rfl
    rw [h, ih]
    rfl

theorem length_decodedSamples (dec : Decoder) (pkts : List (List Nat)) :
    ∀ l : YPR, (decodedSamples dec pkts l).length = pkts.length := by
  induction pkts with
  | nil => intro l; rfl
  | cons p ps ih => intro l; simp [decodedSamples, ih]

theorem length_packetOffsets (pkts : List (List Nat)) :
    ∀ start : Nat, (packetOffsets pkts start).length = pkts.length := by
  induction pkts with
  | nil => intro l; rfl
  | cons p ps ih => intro l; simp [packetOffsets, ih]

/-- The scan loop over a run of valid packets: one publish per packet, in
order, each at the packet's start offset. -/
theorem scanLoop_packets (N : Nat) (dec : Decoder) (clock : Nat → ℚ) (chunk : List Nat)
    (pkts : List (List Nat)) :
    ∀ (pre : List Nat) (st : Scan) (fuel : Nat), st.i = pre.length →
      chunk = pre ++ pkts.flatten → ValidPackets dec pkts st.locals →
      pkts.flatten.length ≤ fuel →
      ∃ st', scanLoop N dec clock chunk fuel st = some st' ∧
        st'.events = st.events ++
          List.zipWith ScanEvent.published (packetOffsets pkts st.i)
            (decodedSamples dec pkts st.locals) ∧
        st'.packets_received = st.packets_received + (pkts.length : Int) ∧
        st'.imu =
          { publishAll N st.imu
              ((decodedSamples dec pkts st.locals).zip ((packetOffsets pkts st.i).map clock)) with
            update_count :=
              if pkts.length = 0 then st.imu.update_count
              else wrapInt32 (st.imu.update_count + (pkts.length : Int)) } := by
  induction pkts with
  | nil =>
    intro pre st fuel hi hchunk _ _
    have hlen : ¬ st.i < chunk.length := by rw [hchunk, hi]; simp
    refine ⟨st, ?_, ?_, ?_, ?_⟩
    · cases fuel <;> simp [scanLoop, hlen]
    · simp [packetOffsets, decodedSamples]
    · simp
    · simp [packetOffsets, decodedSamples, publishAll]
  | cons p ps ih =>
    intro pre st fuel hi hchunk hvalid hfuel
    obtain ⟨hp, hdec, hrest⟩ := hvalid
    rw [List.flatten_cons, List.length_append] at hfuel
    have hdrop : chunk.drop st.i = (p :: ps).flatten := by
      rw [hchunk, hi, List.drop_left]
    have hlt : st.i < chunk.length := by
      rw [hchunk, hi, List.flatten_cons]; simp; omega
    obtain ⟨f, rfl⟩ : ∃ f, fuel = f + 1 := ⟨fuel - 1, by omega⟩
    have hpos : (dec (p :: ps).flatten st.locals).1 > 0 := by rw [hdec]; exact_mod_cast hp
    have hstep : scanStep N dec clock chunk st =
        { i := st.i + p.length
          locals := (dec (p :: ps).flatten st.locals).2
          packets_received := st.packets_received + 1
          imu := SetYawPitchRoll N (clock st.i) (dec (p :: ps).flatten st.locals).2.yaw
            (dec (p :: ps).flatten st.locals).2.pitch (dec (p :: ps).flatten st.locals).2.roll
            (dec (p :: ps).flatten st.locals).2.compass_heading
            { st.imu with update_count := wrapInt32 (st.imu.update_count + 1) }
          events := st.events ++
            [ScanEvent.published st.i (dec (p :: ps).flatten st.locals).2] } := by
      simp only [scanStep, hdrop, hdec, Int.toNat_ofNat]
      rw [if_pos (by exact_mod_cast hp)]
    obtain ⟨st', h1, h2, h3, h4⟩ := ih (pre ++ p) (scanStep N dec clock chunk st) f
      (by rw [hstep]; simp [hi])
      (by rw [hchunk, List.flatten_cons, List.append_assoc])
      (by rw [hstep]; exact hrest) (by omega)
    refine ⟨st', by simp only [scanLoop, hlt, if_true]; exact h1, ?_, ?_, ?_⟩
    · rw [h2, hstep]
      simp [packetOffsets, decodedSamples]
    · rw [h3, hstep]
      simp; ring
    · rw [h4, hstep]
      simp only [packetOffsets, decodedSamples, List.map_cons, List.zip_cons_cons,
        List.length_cons]
      have hswap : SetYawPitchRoll N (clock st.i) (dec (p :: ps).flatten st.locals).2.yaw
          (dec (p :: ps).flatten st.locals).2.pitch (dec (p :: ps).flatten st.locals).2.roll
          (dec (p :: ps).flatten st.locals).2.compass_heading
          { st.imu with update_count := wrapInt32 (st.imu.update_count + 1) } =
          { SetYawPitchRoll N (clock st.i) (dec (p :: ps).flatten st.locals).2.yaw
              (dec (p :: ps).flatten st.locals).2.pitch (dec (p :: ps).flatten st.locals).2.roll
              (dec (p :: ps).flatten st.locals).2.compass_heading st.imu with
            update_count := wrapInt32 (st.imu.update_count + 1) } := rfl
      rw [hswap, publishAll_update_count]
      have hc : (if ps.length = 0 then wrapInt32 (st.imu.update_count + 1)
          else wrapInt32 (wrapInt32 (st.imu.update_count + 1) + (ps.length : Int))) =
          (if ps.length + 1 = 0 then st.imu.update_count
           else wrapInt32 (st.imu.update_count + ((ps.length + 1 : Nat) : Int))) := by
        rw [if_neg (Nat.succ_ne_zero _)]
        by_cases h0 : ps.length = 0
        · rw [if_pos h0, h0]; simp
        · rw [if_neg h0, wrapInt32_wrapInt32_add]
          congr 1
          push_cast
          ring
      show ({ publishAll N _ _ with update_count := _ } : IMU) = _
      simp only [hc]
      rfl

theorem publishAll_last (N : Nat) (s : IMU) (xs : List (YPR × ℚ)) (x : YPR × ℚ)
    (h : xs.getLast? = some x) :
    (publishAll N s xs).yaw = x.1.yaw ∧ (publishAll N s xs).pitch = x.1.pitch ∧
      (publishAll N s xs).roll = x.1.roll ∧
      (publishAll N s xs).compass_heading = x.1.compass_heading ∧
      (publishAll N s xs).last_update_time = x.2 := by
  obtain ⟨ys, rfl⟩ := List.getLast?_eq_some_iff.mp h
  rw [publishAll_append]
  simp [publishAll, SetYawPitchRoll, UpdateYawHistory]

/-- C8 (as stated) fails: with `update_count` and `byte_count` both at
`2^31 - 1`, the chunk `33 10 33 20` (two valid packets) is processed with two
publishes, but the 32-bit counters wrap: `update_count` ends at `-2^31 + 1`,
not `2^31 + 1`, and `byte_count` at `-2^31 + 3`, not `2^31 + 3`. -/
theorem back_to_back_packets_counters_wrap :
    ValidPackets toyDecoder [[33, 10], [33, 20]] ⟨0, 0, 0, 0⟩ ∧
      ∃ r, processChunk 10 toyDecoder (fun _ => 0) [33, 10, 33, 20] ⟨0, 0, 0, 0⟩
          { IMU.blank with update_count := 2147483647, byte_count := 2147483647 } = some r ∧
        r.events =
          [ScanEvent.published 0 ⟨10, 0, 0, 0⟩, ScanEvent.published 2 ⟨20, 0, 0, 0⟩] ∧
        r.imu.update_count = -2147483647 ∧ r.imu.update_count ≠ 2147483647 + 2 ∧
        r.imu.byte_count = -2147483645 ∧ r.imu.byte_count ≠ 2147483647 + 4 := by
  refine ⟨by simp [ValidPackets, toyDecoder], ?_⟩
  simp [processChunk, scanLoop, scanStep, toyDecoder, SetYawPitchRoll, UpdateYawHistory,
    yawWriteIndex, IMU.blank, wrapInt32]

/-- C8 (amended): for a chunk that is `n ≥ 1` valid packets back to back,
processing the chunk ends; its iterations are exactly `n` calls of
`SetYawPitchRoll`, one at the start offset of each packet in the order of the
chunk; `packets_received` is `n`; the IMU afterwards is the state before with
the `n` samples published in order, `update_count` raised by `n` and
`byte_count` raised by the chunk length, both in 32-bit wrap-around arithmetic,
hence by exactly `n` and by exactly the chunk length whenever the counter
before is in the `int` range and the sum does not exceed `2^31 - 1`; and the
cached yaw, pitch, roll, compass heading and `last_update_time` are those of
the last packet's publish. -/
theorem back_to_back_packets (N : Nat) (dec : Decoder) (clock : Nat → ℚ)
    (pkts : List (List Nat)) (locals : YPR) (s : IMU) (hn : 1 ≤ pkts.length)
    (hvalid : ValidPackets dec pkts locals) :
    ∃ r, processChunk N dec clock pkts.flatten locals s = some r ∧
      r.events = List.zipWith ScanEvent.published (packetOffsets pkts 0)
        (decodedSamples dec pkts locals) ∧
      r.events.length = pkts.length ∧
      r.packets_received = (pkts.length : Int) ∧
      r.imu =
        { publishAll N s
            ((decodedSamples dec pkts locals).zip ((packetOffsets pkts 0).map clock)) with
          update_count := wrapInt32 (s.update_count + (pkts.length : Int))
          byte_count := wrapInt32 (s.byte_count + (pkts.flatten.length : Int)) } ∧
      ((decodedSamples dec pkts locals).zip ((packetOffsets pkts 0).map clock)).length =
        pkts.length ∧
      r.imu.update_count = wrapInt32 (s.update_count + (pkts.length : Int)) ∧
      r.imu.byte_count = wrapInt32 (s.byte_count + (pkts.flatten.length : Int)) ∧
      (-2147483648 ≤ s.update_count → s.update_count + (pkts.length : Int) ≤ 2147483647 →
        r.imu.update_count = s.update_count + (pkts.length : Int)) ∧
      (-2147483648 ≤ s.byte_count →
        s.byte_count + (pkts.flatten.length : Int) ≤ 2147483647 →
        r.imu.byte_count = s.byte_count + (pkts.flatten.length : Int)) ∧
      (∀ x, ((decodedSamples dec pkts locals).zip
            ((packetOffsets pkts 0).map clock)).getLast? = some x →
        r.imu.yaw = x.1.yaw ∧ r.imu.pitch = x.1.pitch ∧ r.imu.roll = x.1.roll ∧
          r.imu.compass_heading = x.1.compass_heading ∧ r.imu.last_update_time = x.2) := by
  obtain ⟨st', h1, h2, h3, h4⟩ := scanLoop_packets N dec clock pkts.flatten pkts []
    { i := 0, locals := locals, packets_received := 0,
      imu := { s with byte_count := wrapInt32 (s.byte_count + pkts.flatten.length) },
      events := [] }
    pkts.flatten.length rfl rfl hvalid (le_refl _)
  simp only [List.nil_append, zero_add] at h2 h3 h4
  have hn0 : pkts.length ≠ 0 := by omega
  rw [if_neg hn0] at h4
  have hne : ¬ (st'.packets_received = 0 ∧ pkts.flatten.length = 256) := by
    rw [h3]
    intro h
    have : (pkts.length : Int) = 0 := h.1
    omega
  have himu : st'.imu =
      { publishAll N s
          ((decodedSamples dec pkts locals).zip ((packetOffsets pkts 0).map clock)) with
        update_count := wrapInt32 (s.update_count + (pkts.length : Int))
        byte_count := wrapInt32 (s.byte_count + (pkts.flatten.length : Int)) } := by
    rw [h4]
    have hb : ∀ (xs : List (YPR × ℚ)) (t : IMU) (b : Int),
        publishAll N { t with byte_count := b } xs =
          { publishAll N t xs with byte_count := b } := by
      intro xs
      induction xs with
      | nil => intro t b; rfl
      | cons x xs ih =>
        intro t b
        show publishAll N (SetYawPitchRoll N x.2 x.1.yaw x.1.pitch x.1.roll x.1.compass_heading
          { t with byte_count := b }) xs = _
        have h : SetYawPitchRoll N x.2 x.1.yaw x.1.pitch x.1.roll x.1.compass_heading
            { t with byte_count := b } =
            { SetYawPitchRoll N x.2 x.1.yaw x.1.pitch x.1.roll x.1.compass_heading t with
              byte_count := b } := rfl
        rw [h, ih]
        rfl
    rw [hb]
  have hzl : ((decodedSamples dec pkts locals).zip ((packetOffsets pkts 0).map clock)).length =
      pkts.length := by
    simp [length_decodedSamples, length_packetOffsets]
  have hproc := processChunk_of_scanLoop N dec clock pkts.flatten locals s st' h1
  rw [if_neg hne] at hproc
  refine ⟨_, hproc, h2, ?_, h3, himu, hzl, ?_, ?_, ?_, ?_, ?_⟩
  · show st'.events.length = _
    rw [h2]
    simp [length_decodedSamples, length_packetOffsets]
  · show st'.imu.update_count = _
    rw [himu]
  · show st'.imu.byte_count = _
    rw [himu]
  · intro ha hb
    show st'.imu.update_count = _
    rw [himu]
    exact wrapInt32_of_inRange _ (by omega) hb
  · intro ha hb
    show st'.imu.byte_count = _
    rw [himu]
    exact wrapInt32_of_inRange _ (by omega) hb
  · intro x hx
    show st'.imu.yaw = _ ∧ st'.imu.pitch = _ ∧ st'.imu.roll = _ ∧
      st'.imu.compass_heading = _ ∧ st'.imu.last_update_time = _
    rw [himu]
    exact publishAll_last N s _ x hx

/-- Instance of `back_to_back_packets` for the scenario n = 2: the chunk
`33 10 33 20` holds two packets; from counters at 0 there are two publishes,
the update counter raised by 2, the byte counter by 4, and the cache holds yaw
20 stamped with the clock reading of the second publish. -/
theorem back_to_back_packets_witness :
    ∃ r, processChunk 10 toyDecoder (fun i => 100 + (i : ℚ)) [33, 10, 33, 20] ⟨0, 0, 0, 0⟩
        IMU.blank = some r ∧
      r.events = [ScanEvent.published 0 ⟨10, 0, 0, 0⟩, ScanEvent.published 2 ⟨20, 0, 0, 0⟩] ∧
      r.imu.update_count = 2 ∧ r.imu.byte_count = 4 ∧ r.imu.yaw = 20 ∧
      r.imu.last_update_time = 102 := by
  obtain ⟨r, hr, h1, _, _, _, _, _, _, h6, h7, h8⟩ := back_to_back_packets 10 toyDecoder
    (fun i => 100 + (i : ℚ)) [[33, 10], [33, 20]] ⟨0, 0, 0, 0⟩ IMU.blank (by simp)
    (by simp [ValidPackets, toyDecoder])
  have h9 := h8 (⟨20, 0, 0, 0⟩, 102)
    (by norm_num [decodedSamples, packetOffsets, toyDecoder])
  refine ⟨r, hr, ?_, ?_, ?_, h9.1, h9.2.2.2.2⟩
  · rw [h1]; simp [decodedSamples, packetOffsets, toyDecoder]
  · rw [h6 (by simp [IMU.blank]) (by simp [IMU.blank])]; simp [IMU.blank]
  · rw [h7 (by simp [IMU.blank]) (by simp [IMU.blank])]; simp [IMU.blank]

/-! ## The timeout branch of `imuTask` -/

/-- The polling loop ends at the first check `k` at which `stop` is set or the
pending byte count is not zero, provided the fuel covers the checks before. -/
theorem pollLoop_exit (env : TimeoutEnv) (k : Nat)
    (hpoll : ∀ j, j < k → env.stop_at j = false ∧ env.bytes_at j = 0)
    (hk : env.stop_at k = true ∨ env.bytes_at k ≠ 0) :
    ∀ (fuel j : Nat), j ≤ k → k ≤ j + fuel → pollLoop env fuel j = some k := by
  intro fuel
  induction fuel with
  | zero =>
    intro j hj hf
    have : j = k := by omega
    subst this
    rcases hk with h | h <;> simp [pollLoop, h]
  | succ fuel ih =>
    intro j hj hf
    by_cases hjk : j = k
    · subst hjk
      rcases hk with h | h <;> simp [pollLoop, h]
    · have h := hpoll j (by omega)
      simp only [pollLoop, h.1, h.2]
      simpa using ih (j + 1) (by omega) (by omega)

/-- C10: in the timeout branch, let `k` be the first check of the polling loop
at which `stop` is set or bytes are pending. The branch ends and changes
nothing but the port log, to which it appends either nothing or the sequence
write stream-start command, flush, reset; the command is written exactly when
`stop` is not set at the check after the loop, bytes are pending, and the time
waited `end_timer - start_wait_timer` exceeds 1. So with no stop and pending
bytes the command is written iff the wait exceeds 1, and with `stop` set
nothing is written. -/
theorem timeoutBranch_resend (enc : Nat → List Nat) (env : TimeoutEnv) (fuel : Nat) (s : IMU)
    (k : Nat) (hpoll : ∀ j, j < k → env.stop_at j = false ∧ env.bytes_at j = 0)
    (hk : env.stop_at k = true ∨ env.bytes_at k ≠ 0) (hfuel : k ≤ fuel) :
    ∃ s' suffix, timeoutBranch enc env fuel s = some s' ∧
      s' = { s with effects := s.effects ++ suffix } ∧
      (suffix = [] ∨ suffix =
        [Effect.portWrite (enc s.update_rate_hz), Effect.portFlush, Effect.portReset]) ∧
      (Effect.portWrite (enc s.update_rate_hz) ∈ suffix ↔
        (env.stop_after = false ∧ 0 < env.bytes_at k ∧
          1 < env.end_timer - env.start_wait_timer)) ∧
      (env.stop_after = false → 0 < env.bytes_at k →
        (Effect.portWrite (enc s.update_rate_hz) ∈ suffix ↔
          1 < env.end_timer - env.start_wait_timer)) ∧
      (env.stop_after = true → s' = s) := by
  have hexit := pollLoop_exit env k hpoll hk fuel 0 (Nat.zero_le _) (by omega)
  by_cases hc : env.stop_after = false ∧ 0 < env.bytes_at k ∧
      1 < env.end_timer - env.start_wait_timer
  · obtain ⟨h1, h2, h3⟩ := hc
    refine ⟨_, [Effect.portWrite (enc s.update_rate_hz), Effect.portFlush, Effect.portReset],
      ?_, rfl, Or.inr rfl, ?_, ?_, ?_⟩
    · simp [timeoutBranch, hexit, h1, h2, h3]
    · simp [h1, h2, h3]
    · intro _ _; simp [h3]
    · intro h; rw [h1] at h; cases h
  · refine ⟨s, [], ?_, by simp, Or.inl rfl, ?_, ?_, ?_⟩
    · simp only [timeoutBranch, hexit]
      by_cases h1 : env.stop_after = false
      · by_cases h2 : 0 < env.bytes_at k
        · have h3 : ¬ 1 < env.end_timer - env.start_wait_timer := fun h => hc ⟨h1, h2, h⟩
          simp [h1, h2, h3]
        · simp [h1, h2]
      · simp [h1]
    · simp [hc]
    · intro h1 h2
      have h3 : ¬ 1 < env.end_timer - env.start_wait_timer := fun h => hc ⟨h1, h2, h⟩
      simp [h3]
    · intro _; trivial

/-- Instance of `timeoutBranch_resend` for the two scenarios: bytes pending at
the fourth check, no stop, the wait starting at clock reading 10. Ending at
10.5 (wait 0.5) leaves the port log untouched; ending at 11.5 (wait 1.5)
appends write, flush, reset. -/
theorem timeoutBranch_resend_witness :
    timeoutBranch (fun rate => [33, 83, rate]) ⟨10, fun _ => false,
        fun j => if j < 3 then 0 else 5, false, 21 / 2⟩ 3 IMU.blank = some IMU.blank ∧
      timeoutBranch (fun rate => [33, 83, rate]) ⟨10, fun _ => false,
        fun j => if j < 3 then 0 else 5, false, 23 / 2⟩ 3 IMU.blank =
        some { IMU.blank with
          effects := [Effect.portWrite [33, 83, 0], Effect.portFlush, Effect.portReset] } := by
  obtain ⟨s1, suf1, ha, hb, hs1, _, hc, _⟩ := timeoutBranch_resend (fun rate => [33, 83, rate])
    ⟨10, fun _ => false, fun j => if j < 3 then 0 else 5, false, 21 / 2⟩ 3 IMU.blank 3
    (by intro j hj; simp [hj]) (by simp) (le_refl _)
  obtain ⟨s2, suf2, hd, he, hf, _, hg, _⟩ := timeoutBranch_resend (fun rate => [33, 83, rate])
    ⟨10, fun _ => false, fun j => if j < 3 then 0 else 5, false, 23 / 2⟩ 3 IMU.blank 3
    (by intro j hj; simp [hj]) (by simp) (le_refl _)
  have h1 : suf1 = [] := by
    rcases hs1 with h | h
    · exact h
    · have := (hc rfl (by simp)).mp (by rw [h]; simp)
      norm_num at this
  have h2 : suf2 = [Effect.portWrite [33, 83, 0], Effect.portFlush, Effect.portReset] := by
    rcases hf with h | h
    · have := (hg rfl (by simp)).mpr (by norm_num)
      rw [h] at this
      simp at this
    · exact h
  refine ⟨?_, ?_⟩
  · rw [ha, hb, h1]; simp [IMU.blank]
  · rw [hd, he, h2]; simp [IMU.blank]

end Nav6
